import Mathlib

/-!
Shallow embedding of the distributed collective primitives lowered in
hpat/distributed_lower.py: the partitioner (hpat_dist_get_end /
hpat_dist_get_node_portion), the scalar reduction and exclusive-scan dispatch
(lower_dist_reduce / lower_dist_exscan), the array reduction
(lower_dist_arr_reduce) and the two-phase distributed cumulative sum
(cumsum_impl inside lower_dist_cumsum).

The compiled loops accumulate with a left fold in index order; array reads and
writes are modelled on Lean lists with explicit indices.  The native MPI
routines are not part of the Python sources, so their behaviour is modelled
from the spec where a claim needs it; each such definition carries a doc
comment starting with "Modelled from the spec".
-/

/-- Sum of a list accumulated by a left fold in index order, the accumulation
order of the compiled loops (c += v over np.nditer, and the output walk). -/
def listSum {α : Type} [AddMonoid α] (xs : List α) : α :=
  xs.foldl (fun a b => a + b) 0

theorem foldl_add_init {α : Type} [AddMonoid α] (xs : List α) (a : α) :
    xs.foldl (fun x y => x + y) a = a + listSum xs := by
  induction xs generalizing a with
  | nil => simp [listSum]
  | cons x xs ih =>
    show xs.foldl (fun x y => x + y) (a + x) = a + listSum (x :: xs)
    rw [ih (a + x)]
    show a + x + listSum xs = a + List.foldl (fun x y => x + y) (0 + x) xs
    rw [ih (0 + x), zero_add, add_assoc]

theorem listSum_nil {α : Type} [AddMonoid α] : listSum ([] : List α) = 0 := rfl

theorem listSum_cons {α : Type} [AddMonoid α] (x : α) (xs : List α) :
    listSum (x :: xs) = x + listSum xs := by
  show xs.foldl (fun x y => x + y) (0 + x) = x + listSum xs
  rw [foldl_add_init, zero_add]

theorem listSum_append {α : Type} [AddMonoid α] (xs ys : List α) :
    listSum (xs ++ ys) = listSum xs + listSum ys := by
  induction xs with
  | nil => simp [listSum_nil]
  | cons x xs ih => simp [listSum_cons, ih, add_assoc]

theorem listSum_singleton {α : Type} [AddMonoid α] (x : α) :
    listSum [x] = x := by
  rw [listSum_cons, listSum_nil, add_zero]

/-- getD after an update at a distinct index is unchanged. -/
theorem getD_set_ne {α : Type} (l : List α) (i j : Nat) (v d : α) (h : i ≠ j) :
    (l.set i v).getD j d = l.getD j d := by
  induction l generalizing i j with
  | nil => simp [List.set]
  | cons a l ih =>
    cases i with
    | zero =>
      cases j with
      | zero => exact absurd rfl h
      | succ j => simp [List.set]
    | succ i =>
      cases j with
      | zero => simp [List.set]
      | succ j =>
        have : i ≠ j := fun hij => h (by rw [hij])
        simpa [List.set] using ih i j this

/-- getD after an update at the same in-range index returns the stored value. -/
theorem getD_set_self {α : Type} (l : List α) (i : Nat) (v d : α)
    (h : i < l.length) :
    (l.set i v).getD i d = v := by
  induction l generalizing i with
  | nil => simp at h
  | cons a l ih =>
    cases i with
    | zero => simp [List.set]
    | succ i => simpa [List.set] using ih i (by simpa using h)

/-- getD at an in-range index equals the indexed element. -/
theorem getD_eq_getElem {α : Type} (l : List α) (i : Nat) (d : α)
    (h : i < l.length) :
    l.getD i d = l[i] := by
  induction l generalizing i with
  | nil => simp at h
  | cons a l ih =>
    cases i with
    | zero => rfl
    | succ i => simpa using ih i (by simpa using h)

/-- Modelled from the spec: the native routines hpat_dist_exscan_i4/i8/f4/f8 are
not part of the Python sources.  The spec states that exclusiveScan returns to
worker r the sum of the values contributed by workers 0..r-1, and 0 for worker
0.  `cs` is the vector of per-worker contributions in rank order. -/
def dist_exscan {α : Type} [AddMonoid α] (cs : List α) (r : Nat) : α :=
  listSum (cs.take r)

/-- The second compiled loop of cumsum_impl:
for i in range(n): prefix_var += in_arr[i]; out_arr[i] = prefix_var.
The state carries (in_arr, out_arr); the body reads in_arr[i] and stores only
into out_arr. -/
def cumsum_loop {α : Type} [AddMonoid α] :
    Nat → Nat → α → List α × List α → List α × List α
  | 0, _, _, s => s
  | n + 1, i, p, s =>
    cumsum_loop n (i + 1) (p + s.1.getD i 0) (s.1, s.2.set i (p + s.1.getD i 0))

/-- cumsum_impl from hpat/distributed_lower.py, as executed by worker r of an
SPMD run in which `shards` lists every worker's local input shard in rank
order.  Phase 1 computes c, the local sum in index order; phase 2 is the
collective exclusive scan of the per-worker local sums; phase 3 walks the local
shard in index order writing into out_arr; the compiled function finally
returns the integer constant 0.  The result is ((in_arr, out_arr), return
value) after the call. -/
def cumsum_impl {α : Type} [AddMonoid α] (shards : List (List α)) (r : Nat)
    (out_arr : List α) : (List α × List α) × Int :=
  let in_arr := shards.getD r []
  let c := listSum in_arr
  let cs := (shards.map listSum).set r c
  let prefix_var := dist_exscan cs r
  (cumsum_loop in_arr.length 0 prefix_var (in_arr, out_arr), 0)

theorem cumsum_loop_fst {α : Type} [AddMonoid α] (n i : Nat) (p : α)
    (s : List α × List α) :
    (cumsum_loop n i p s).1 = s.1 := by
  induction n generalizing i p s with
  | zero => rfl
  | succ n ih => simpa [cumsum_loop] using ih (i + 1) _ _

theorem cumsum_loop_length {α : Type} [AddMonoid α] (n i : Nat) (p : α)
    (s : List α × List α) :
    (cumsum_loop n i p s).2.length = s.2.length := by
  induction n generalizing i p s with
  | zero => rfl
  | succ n ih =>
    rw [cumsum_loop, ih (i + 1) _ _]
    simp

/-- Positions below the loop index are never touched. -/
theorem cumsum_loop_getD_lt {α : Type} [AddMonoid α] (n i j : Nat) (p : α)
    (s : List α × List α) (d : α) (hj : j < i) :
    (cumsum_loop n i p s).2.getD j d = s.2.getD j d := by
  induction n generalizing i p s with
  | zero => rfl
  | succ n ih =>
    rw [cumsum_loop, ih (i + 1) _ _ (Nat.lt_succ_of_lt hj)]
    exact getD_set_ne _ _ _ _ _ (by omega)

/-- Positions at or beyond i + n are never touched. -/
theorem cumsum_loop_getD_ge {α : Type} [AddMonoid α] (n i j : Nat) (p : α)
    (s : List α × List α) (d : α) (hj : i + n ≤ j) :
    (cumsum_loop n i p s).2.getD j d = s.2.getD j d := by
  induction n generalizing i p s with
  | zero => rfl
  | succ n ih =>
    rw [cumsum_loop, ih (i + 1) _ _ (by omega)]
    exact getD_set_ne _ _ _ _ _ (by omega)

/-- Value written at position j by the loop started at index i with carry p:
the carry plus the left-fold sum of the inputs at positions i..j. -/
theorem cumsum_loop_getD_mid {α : Type} [AddMonoid α] (n i j : Nat) (p : α)
    (ins out : List α) (d : α) (hij : i ≤ j) (hjn : j < i + n)
    (hjo : j < out.length) (hin : i + n ≤ ins.length) :
    (cumsum_loop n i p (ins, out)).2.getD j d
      = p + listSum ((ins.drop i).take (j - i + 1)) := by
  induction n generalizing i p out with
  | zero => omega
  | succ n ih =>
    have hi : i < ins.length := by omega
    have hdrop : ins.drop i = ins[i] :: ins.drop (i + 1) :=
      List.drop_eq_getElem_cons hi
    have hget : ins.getD i d = ins[i] := getD_eq_getElem _ _ _ hi
    rw [cumsum_loop]
    by_cases hji : j = i
    · subst hji
      rw [cumsum_loop_getD_lt n (j + 1) j _ _ d (Nat.lt_succ_self j),
        getD_set_self _ _ _ _ (by simpa using hjo)]
      have h1 : j - j + 1 = 1 := by omega
      rw [h1, hdrop]
      show p + ins.getD j 0 = p + listSum [ins[j]]
      rw [listSum_singleton, getD_eq_getElem _ _ _ hi]
    · have hij1 : i + 1 ≤ j := by omega
      rw [ih (i + 1) _ (out.set i (p + ins.getD i 0)) hij1 (by omega)
        (by simpa using hjo) (by omega)]
      have h2 : j - i + 1 = (j - (i + 1) + 1) + 1 := by omega
      rw [h2, hdrop, List.take_succ_cons, listSum_cons, ← add_assoc,
        getD_eq_getElem ins i 0 hi]

/-- Updating at an index at or beyond the taken length leaves the taken part
unchanged. -/
theorem take_set_of_le {α : Type} (l : List α) (i n : Nat) (v : α)
    (h : n ≤ i) :
    (l.set i v).take n = l.take n := by
  induction l generalizing i n with
  | nil => simp [List.set]
  | cons a l ih =>
    cases i with
    | zero =>
      cases n with
      | zero => rfl
      | succ n => omega
    | succ i =>
      cases n with
      | zero => rfl
      | succ n => simp [List.set, List.take_succ_cons, ih i n (by omega)]

/-- Number of global elements owned by workers of rank below r; since the
shards are contiguous in global index order, this is the global index of the
first local element of worker r. -/
def shardOffset {α : Type} (shards : List (List α)) (r : Nat) : Nat :=
  ((shards.take r).flatten).length

theorem listSum_flatten {α : Type} [AddMonoid α] (L : List (List α)) :
    listSum (L.map listSum) = listSum L.flatten := by
  induction L with
  | nil => rfl
  | cons x L ih =>
    simp [List.map, listSum_cons, List.flatten_cons, listSum_append, ih]

/-- The value the modelled exclusive scan hands to worker r inside cumsum_impl
is the sum of all elements owned by the lower-ranked workers. -/
theorem exscan_shards {α : Type} [AddMonoid α] (shards : List (List α))
    (r : Nat) :
    dist_exscan ((shards.map listSum).set r (listSum (shards.getD r []))) r
      = listSum ((shards.take r).flatten) := by
  rw [dist_exscan, take_set_of_le _ _ _ _ (le_refl r), ← List.map_take,
    listSum_flatten]

/-- The first shardOffset + m global elements split into the lower shards and
the first m elements of shard r. -/
theorem take_flatten_split {α : Type} (shards : List (List α)) (r m : Nat)
    (hr : r < shards.length) (hm : m ≤ (shards.getD r []).length) :
    (shards.flatten).take (shardOffset shards r + m)
      = (shards.take r).flatten ++ (shards.getD r []).take m := by
  have hgetD : shards.getD r [] = shards[r] := getD_eq_getElem _ _ _ hr
  simp only [shardOffset]
  conv_lhs =>
    rw [show shards.flatten = (shards.take r).flatten ++ (shards.drop r).flatten
      from by rw [← List.flatten_append, List.take_append_drop]]
  rw [List.take_append_eq_append_take,
    List.take_of_length_le (Nat.le_add_right _ _), Nat.add_sub_cancel_left,
    List.drop_eq_getElem_cons hr, List.flatten_cons,
    List.take_append_eq_append_take]
  have h3 : m - (shards[r] : List α).length = 0 := by
    rw [← hgetD]; omega
  rw [h3, List.take_zero, List.append_nil, hgetD]

/-- C1: for every worldSize ≥ 1, every contiguous row-sharding of the global
array (shards in rank order, global array = shards.flatten), and every worker
r whose output shard has the length of its input shard, cumsum_impl — local
left-fold sum, one exclusive scan of that sum, then the in-order walk doing
prefix += element; out[i] = prefix — writes at each local position k the sum of
all global elements at positions 0..(shardOffset + k). -/
theorem cumsum_correct {α : Type} [AddMonoid α] (shards : List (List α))
    (r : Nat) (out_arr : List α) (hr : r < shards.length)
    (hlen : out_arr.length = (shards.getD r []).length)
    (k : Nat) (hk : k < (shards.getD r []).length) :
    ((cumsum_impl shards r out_arr).1.2).getD k 0
      = listSum ((shards.flatten).take (shardOffset shards r + (k + 1))) := by
  simp only [cumsum_impl]
  rw [cumsum_loop_getD_mid _ 0 k _ _ _ 0 (Nat.zero_le k) (by omega) (by omega)
    (by omega)]
  rw [List.drop_zero, Nat.sub_zero, exscan_shards,
    take_flatten_split shards r (k + 1) hr (by omega), listSum_append]

/-- Witness for cumsum_correct at the scenario of the spec: global array
[1,2,3,4,5,6], worldSize 2, worker 1, local position 0 holds the sum of the
first four global elements. -/
theorem cumsum_correct_witness :
    (1 < ([[(1 : Int), 2, 3], [4, 5, 6]] : List (List Int)).length)
    ∧ (([0, 0, 0] : List Int).length
        = (([[(1 : Int), 2, 3], [4, 5, 6]] : List (List Int)).getD 1 []).length)
    ∧ (0 < (([[(1 : Int), 2, 3], [4, 5, 6]] : List (List Int)).getD 1 []).length)
    ∧ ((cumsum_impl [[(1 : Int), 2, 3], [4, 5, 6]] 1 [0, 0, 0]).1.2).getD 0 0
        = listSum ((([[(1 : Int), 2, 3], [4, 5, 6]] : List (List Int)).flatten).take
            (shardOffset ([[(1 : Int), 2, 3], [4, 5, 6]] : List (List Int)) 1 + (0 + 1))) :=
  ⟨by decide, by decide, by decide,
    cumsum_correct [[(1 : Int), 2, 3], [4, 5, 6]] 1 [0, 0, 0] (by decide)
      (by decide) 0 (by decide)⟩

/-- C8: cumsum_impl never writes to the input shard: after the call the first
component of the state, the input array, is exactly the input shard, element
for element; only the output array component is updated. -/
theorem cumsum_preserves_input {α : Type} [AddMonoid α]
    (shards : List (List α)) (r : Nat) (out_arr : List α) :
    (cumsum_impl shards r out_arr).1.1 = shards.getD r [] := by
  simp only [cumsum_impl]
  rw [cumsum_loop_fst]

/-- C9: the compiled cumsum_impl returns the constant integer 0 on every
input; its computed result reaches the caller only through the output array. -/
theorem cumsum_returns_zero {α : Type} [AddMonoid α] (shards : List (List α))
    (r : Nat) (out_arr : List α) :
    (cumsum_impl shards r out_arr).2 = 0 := rfl

/-- Counterexample to C2: with localIn = [1,2] and localOut = [0,0,0] the
lengths differ, yet cumsum_impl raises nothing: it runs all three phases,
writes the two cumulative values, leaves the tail untouched and returns 0. -/
theorem cumsum_shape_mismatch_cex :
    (([0, 0, 0] : List Int).length ≠ ([(1 : Int), 2]).length)
    ∧ cumsum_impl [[(1 : Int), 2]] 0 [0, 0, 0] = (([1, 2], [1, 3, 0]), 0) := by
  decide

/-- C2 as amended: cumsum_impl performs no length validation at all.  When the
output shard length differs from the input shard length the call still
completes, returning 0, never touching the input shard, and leaving every
output position at or beyond the input length unchanged. -/
theorem cumsum_no_shape_check {α : Type} [AddMonoid α]
    (shards : List (List α)) (r : Nat) (out_arr : List α)
    (h : out_arr.length ≠ (shards.getD r []).length) :
    (cumsum_impl shards r out_arr).2 = 0
    ∧ (cumsum_impl shards r out_arr).1.1 = shards.getD r []
    ∧ ∀ j, (shards.getD r []).length ≤ j →
        ((cumsum_impl shards r out_arr).1.2).getD j 0 = out_arr.getD j 0 := by
  refine ⟨rfl, ?_, ?_⟩
  · simp only [cumsum_impl]
    rw [cumsum_loop_fst]
  · intro j hj
    simp only [cumsum_impl]
    rw [cumsum_loop_getD_ge _ 0 j _ _ _ (by omega)]

/-- Witness for cumsum_no_shape_check: mismatched lengths 3 and 2. -/
theorem cumsum_no_shape_check_witness :
    (([0, 0, 0] : List Int).length
        ≠ (([[(1 : Int), 2]] : List (List Int)).getD 0 []).length)
    ∧ (cumsum_impl [[(1 : Int), 2]] 0 [0, 0, 0]).2 = 0
    ∧ ((cumsum_impl [[(1 : Int), 2]] 0 [0, 0, 0]).1.2).getD 2 0
        = ([0, 0, 0] : List Int).getD 2 0 :=
  ⟨by decide, (cumsum_no_shape_check [[(1 : Int), 2]] 0 [0, 0, 0] (by decide)).1,
    (cumsum_no_shape_check [[(1 : Int), 2]] 0 [0, 0, 0] (by decide)).2.2 2
      (by decide)⟩

/-- Modelled from the spec: share size of the base/remainder scheme behind the
native hpat_dist_get_node_portion: base = totalLength / worldSize, remainder =
totalLength % worldSize; the remainder lowest-ranked workers get base + 1
elements, the rest get base. -/
def portionSpec (total ws rank : Nat) : Nat :=
  total / ws + (if rank < total % ws then 1 else 0)

/-- Modelled from the spec: the native hpat_dist_get_end behind dist_get_end is
not part of the Python sources; per the spec, partitionEnd is the cumulative
sum of the local sizes for ranks ≤ rank.  The lowered call site passes a second
int64 argument (divArg) that the spec signature does not have; the model
carries it unused. -/
def hpat_dist_get_end (total divArg rank ws : Nat) : Nat :=
  ∑ i in Finset.range (rank + 1), portionSpec total ws i

/-- Modelled from the spec: partitionSize(rank) = partitionEnd(rank) −
partitionEnd(rank − 1), with partitionEnd(−1) = 0. -/
def hpat_dist_get_node_portion (total divArg rank ws : Nat) : Nat :=
  hpat_dist_get_end total divArg rank ws
    - (if rank = 0 then 0 else hpat_dist_get_end total divArg (rank - 1) ws)

theorem portion_eq_portionSpec (total divArg rank ws : Nat) :
    hpat_dist_get_node_portion total divArg rank ws
      = portionSpec total ws rank := by
  cases rank with
  | zero =>
    simp [hpat_dist_get_node_portion, hpat_dist_get_end, Finset.sum_range_one]
  | succ r =>
    simp only [hpat_dist_get_node_portion, hpat_dist_get_end,
      if_neg (Nat.succ_ne_zero r), Nat.add_sub_cancel]
    rw [Finset.sum_range_succ]
    omega

theorem sum_portionSpec_aux (b m : Nat) :
    ∀ n, ∑ r in Finset.range n, (b + (if r < m then 1 else 0))
      = n * b + min n m := by
  intro n
  induction n with
  | zero => simp
  | succ n ih =>
    rw [Finset.sum_range_succ, ih, Nat.succ_mul]
    by_cases h : n < m
    · rw [if_pos h]
      omega
    · rw [if_neg h]
      omega

theorem sum_portionSpec (total ws : Nat) (hws : 1 ≤ ws) :
    ∑ r in Finset.range ws, portionSpec total ws r = total := by
  have hm : total % ws < ws := Nat.mod_lt _ (by omega)
  simp only [portionSpec]
  rw [sum_portionSpec_aux (total / ws) (total % ws) ws]
  have hd := Nat.div_add_mod total ws
  omega

/-- C4: partitionEnd and partitionSize depend only on (totalLength, rank,
worldSize): the extra int64 argument visible in the lowered native call
signature does not influence the result, and two calls with identical values
of the three arguments yield identical results. -/
theorem partition_pure (total rank ws d1 d2 : Nat) :
    hpat_dist_get_end total d1 rank ws = hpat_dist_get_end total d2 rank ws
    ∧ hpat_dist_get_node_portion total d1 rank ws
      = hpat_dist_get_node_portion total d2 rank ws :=
  ⟨rfl, rfl⟩

/-- C5: for every totalLength ≥ 0 and worldSize ≥ 1 the share sizes of all
ranks 0..worldSize−1 sum exactly to totalLength. -/
theorem portion_sum_eq_total (total divArg ws : Nat) (hws : 1 ≤ ws) :
    ∑ r in Finset.range ws, hpat_dist_get_node_portion total divArg r ws
      = total := by
  calc ∑ r in Finset.range ws, hpat_dist_get_node_portion total divArg r ws
      = ∑ r in Finset.range ws, portionSpec total ws r :=
        Finset.sum_congr rfl (fun r _ => portion_eq_portionSpec total divArg r ws)
    _ = total := sum_portionSpec total ws hws

/-- Witness for portion_sum_eq_total: totalLength 7 over 3 workers. -/
theorem portion_sum_eq_total_witness :
    (1 ≤ 3)
    ∧ ∑ r in Finset.range 3, hpat_dist_get_node_portion 7 0 r 3 = 7 :=
  ⟨by decide, portion_sum_eq_total 7 0 3 (by decide)⟩

/-- C6: each share equals base + 1 for the remainder lowest-ranked workers and
base for the rest; partitionEnd is the cumulative sum of the share sizes for
ranks ≤ rank; and any two share sizes differ by at most 1. -/
theorem portion_balanced (total divArg rank ws : Nat) (hws : 1 ≤ ws) :
    hpat_dist_get_node_portion total divArg rank ws
      = total / ws + (if rank < total % ws then 1 else 0)
    ∧ hpat_dist_get_end total divArg rank ws
      = ∑ i in Finset.range (rank + 1),
          hpat_dist_get_node_portion total divArg i ws
    ∧ ∀ r2, hpat_dist_get_node_portion total divArg rank ws
        ≤ hpat_dist_get_node_portion total divArg r2 ws + 1 := by
  refine ⟨portion_eq_portionSpec total divArg rank ws, ?_, ?_⟩
  · have h := Finset.sum_congr rfl
      (fun i (_ : i ∈ Finset.range (rank + 1)) =>
        portion_eq_portionSpec total divArg i ws)
    rw [h]
    rfl
  · intro r2
    rw [portion_eq_portionSpec, portion_eq_portionSpec]
    simp only [portionSpec]
    split_ifs <;> omega

/-- Witness for portion_balanced at totalLength 7, a junk divArg 5, rank 1,
worldSize 3 (and other rank 2 in the ±1 clause). -/
theorem portion_balanced_witness :
    (1 ≤ 3)
    ∧ hpat_dist_get_node_portion 7 5 1 3
        = 7 / 3 + (if 1 < 7 % 3 then 1 else 0)
    ∧ hpat_dist_get_end 7 5 1 3
        = ∑ i in Finset.range (1 + 1), hpat_dist_get_node_portion 7 5 i 3
    ∧ hpat_dist_get_node_portion 7 5 1 3
        ≤ hpat_dist_get_node_portion 7 5 2 3 + 1 :=
  ⟨by decide, (portion_balanced 7 5 1 3 (by decide)).1,
    (portion_balanced 7 5 1 3 (by decide)).2.1,
    (portion_balanced 7 5 1 3 (by decide)).2.2 2⟩

/-- The kind of value a lowered builtin call leaves in the calling compiled
code: either a plain int32 status or an array of elements. -/
inductive RetVal where
  | status (code : Int) : RetVal
  | array (data : List Int) : RetVal
  deriving DecidableEq

/-- Elementwise combination of the equally-shaped buffers held by the workers,
folding in rank order from the rank-0 buffer. -/
def elemwise_sum (bufs : List (List Int)) : List Int :=
  match bufs with
  | [] => []
  | b :: rest => rest.foldl (fun acc x => acc.zipWith (fun u v => u + v) x) b

/-- Modelled from the spec: the native hpat_dist_arr_reduce is not part of the
Python sources; per the spec it combines the equally-shaped buffers of every
worker elementwise (op = Sum) and delivers the combined array to every worker
in place in its buffer; the routine itself yields an int32 status (0). -/
def hpat_dist_arr_reduce (bufs : List (List Int)) : List (List Int) × Int :=
  (bufs.map (fun _ => elemwise_sum bufs), 0)

/-- lower_dist_arr_reduce from hpat/distributed_lower.py: the lowered builtin
passes the buffer data pointer, shape, ndim and a type tag to the native call,
whose function type returns IntType(32), and returns that int32 call value as
the value of the lowered expression. -/
def lower_dist_arr_reduce (bufs : List (List Int)) : List (List Int) × RetVal :=
  ((hpat_dist_arr_reduce bufs).1, RetVal.status (hpat_dist_arr_reduce bufs).2)

theorem getD_map_const {α β : Type} (l : List α) (c : β) (r : Nat) (d : β)
    (h : r < l.length) : (l.map (fun _ => c)).getD r d = c := by
  induction l generalizing r with
  | nil => simp at h
  | cons a l ih =>
    cases r with
    | zero => rfl
    | succ r => simpa using ih r (by simpa using h)

theorem getD_zipWith_add (a b : List Int) (j : Nat) (hja : j < a.length)
    (hjb : j < b.length) :
    (a.zipWith (fun u v => u + v) b).getD j 0 = a.getD j 0 + b.getD j 0 := by
  induction a generalizing b j with
  | nil => simp at hja
  | cons x a ih =>
    cases b with
    | nil => simp at hjb
    | cons y b =>
      cases j with
      | zero => rfl
      | succ j =>
        simpa [List.zipWith] using ih b j (by simpa using hja)
          (by simpa using hjb)

theorem foldl_zipWith_getD (rest : List (List Int)) :
    ∀ (acc : List Int) (j : Nat), (∀ b ∈ rest, b.length = acc.length) →
      j < acc.length →
      (rest.foldl (fun acc x => acc.zipWith (fun u v => u + v) x) acc).getD j 0
        = acc.getD j 0 + listSum (rest.map (fun b => b.getD j 0)) := by
  induction rest with
  | nil =>
    intro acc j _ _
    simp [listSum_nil]
  | cons x rest ih =>
    intro acc j hlen hj
    have hx : x.length = acc.length := hlen x (List.mem_cons_self x rest)
    have h1 : (acc.zipWith (fun u v => u + v) x).length = acc.length := by
      rw [List.length_zipWith, hx, Nat.min_self]
    rw [List.foldl_cons,
      ih (acc.zipWith (fun u v => u + v) x) j
        (fun b hb => (hlen b (List.mem_cons_of_mem x hb)).trans h1.symm)
        (by omega),
      getD_zipWith_add acc x j hj (by omega),
      List.map_cons, listSum_cons, add_assoc]

theorem elemwise_sum_getD (bufs : List (List Int)) (j : Nat)
    (hne : bufs ≠ [])
    (hshape : ∀ b ∈ bufs, b.length = (bufs.getD 0 []).length)
    (hj : j < (bufs.getD 0 []).length) :
    (elemwise_sum bufs).getD j 0
      = listSum (bufs.map (fun b => b.getD j 0)) := by
  cases bufs with
  | nil => exact absurd rfl hne
  | cons b rest =>
    have hb : (b :: rest).getD 0 [] = b := rfl
    rw [hb] at hshape hj
    show (rest.foldl (fun acc x => acc.zipWith (fun u v => u + v) x) b).getD j 0
      = _
    rw [foldl_zipWith_getD rest b j
      (fun x hx => hshape x (List.mem_cons_of_mem b hx)) hj,
      List.map_cons, listSum_cons]

/-- Counterexample to C3: with worldSize 1 and buffer [1, 2], the value
returned by the lowered reduceArray call is the int32 status 0, not the
(unchanged) input array: the combined array is delivered only in place. -/
theorem arr_reduce_status_cex :
    (lower_dist_arr_reduce [[1, 2]]).2 = RetVal.status 0
    ∧ (lower_dist_arr_reduce [[1, 2]]).2 ≠ RetVal.array [1, 2] := by
  decide

/-- C3 as amended: reduceArray(op=Sum) leaves in every worker's buffer the
elementwise sum of all workers' buffers, the call value is the int32 status
0 rather than an array, and with worldSize = 1 the buffer contents are
unchanged from the input. -/
theorem arr_reduce_inplace_sum (bufs : List (List Int)) (r j : Nat)
    (hr : r < bufs.length)
    (hshape : ∀ b ∈ bufs, b.length = (bufs.getD 0 []).length)
    (hj : j < (bufs.getD 0 []).length) :
    ((lower_dist_arr_reduce bufs).1.getD r []).getD j 0
      = listSum (bufs.map (fun b => b.getD j 0))
    ∧ (lower_dist_arr_reduce bufs).2 = RetVal.status 0
    ∧ (bufs.length = 1 →
        (lower_dist_arr_reduce bufs).1.getD r [] = bufs.getD 0 []) := by
  have hmap : (lower_dist_arr_reduce bufs).1.getD r [] = elemwise_sum bufs := by
    show (bufs.map (fun _ => elemwise_sum bufs)).getD r [] = _
    exact getD_map_const bufs (elemwise_sum bufs) r [] hr
  refine ⟨?_, rfl, ?_⟩
  · rw [hmap]
    refine elemwise_sum_getD bufs j ?_ hshape hj
    intro hnil
    rw [hnil] at hr
    simp at hr
  · intro h1
    rw [hmap]
    cases bufs with
    | nil => simp at hr
    | cons b rest =>
      cases rest with
      | nil => rfl
      | cons c cs => simp at h1

/-- Witness for arr_reduce_inplace_sum: two workers with buffers [1,2] and
[10,20]; worker 1 position 0 receives 11. -/
theorem arr_reduce_inplace_sum_witness :
    (1 < ([[(1 : Int), 2], [10, 20]] : List (List Int)).length)
    ∧ (∀ b ∈ ([[(1 : Int), 2], [10, 20]] : List (List Int)),
        b.length = (([[(1 : Int), 2], [10, 20]] : List (List Int)).getD 0 []).length)
    ∧ (0 < (([[(1 : Int), 2], [10, 20]] : List (List Int)).getD 0 []).length)
    ∧ ((lower_dist_arr_reduce [[(1 : Int), 2], [10, 20]]).1.getD 1 []).getD 0 0
        = listSum (([[(1 : Int), 2], [10, 20]] : List (List Int)).map
            (fun b => b.getD 0 0)) :=
  ⟨by decide, by decide, by decide,
    (arr_reduce_inplace_sum [[(1 : Int), 2], [10, 20]] 1 0 (by decide)
      (by decide) (by decide)).1⟩

/-- The scalar element types of the numba signature universe relevant to the
dist_reduce / dist_exscan lowerings.  The four registered types are the keys of
the typ_map dictionary; the remaining constructors stand for the other numba
scalar types. -/
inductive NumbaNumType where
  | int8 | int16 | int32 | int64 | uint32 | uint64
  | float16 | float32 | float64 | boolean
  deriving DecidableEq

/-- typ_map from lower_dist_reduce / lower_dist_exscan:
{int32: i4, int64: i8, float32: f4, float64: f8}; every other type has no
entry. -/
def typ_map : NumbaNumType → Option String
  | NumbaNumType.int32 => some "i4"
  | NumbaNumType.int64 => some "i8"
  | NumbaNumType.float32 => some "f4"
  | NumbaNumType.float64 => some "f8"
  | _ => none

inductive DistError where
  | UnsupportedType
  deriving DecidableEq

/-- Static dispatch of dist_reduce: the lower_builtin registrations cover
exactly the four types keyed in typ_map, and the lowered call binds the native
symbol hpat_dist_reduce_ followed by the tag.  Modelled from the spec for any
other element type: the call fails with UnsupportedType before any native
symbol is resolved, hence before any communication. -/
def lower_dist_reduce (t : NumbaNumType) : Except DistError String :=
  match typ_map t with
  | some tag => Except.ok (String.append "hpat_dist_reduce_" tag)
  | none => Except.error DistError.UnsupportedType

/-- Static dispatch of dist_exscan: same registrations and typ_map, native
symbol hpat_dist_exscan_ followed by the tag. -/
def lower_dist_exscan (t : NumbaNumType) : Except DistError String :=
  match typ_map t with
  | some tag => Except.ok (String.append "hpat_dist_exscan_" tag)
  | none => Except.error DistError.UnsupportedType

/-- C7: dist_reduce and dist_exscan are dispatched statically for exactly
{int32, int64, float32, float64}, to the native routines tagged i4, i8, f4,
f8; every other element type fails with UnsupportedType before any native
symbol is resolved. -/
theorem reduce_exscan_dispatch :
    lower_dist_reduce NumbaNumType.int32 = Except.ok "hpat_dist_reduce_i4"
    ∧ lower_dist_reduce NumbaNumType.int64 = Except.ok "hpat_dist_reduce_i8"
    ∧ lower_dist_reduce NumbaNumType.float32 = Except.ok "hpat_dist_reduce_f4"
    ∧ lower_dist_reduce NumbaNumType.float64 = Except.ok "hpat_dist_reduce_f8"
    ∧ lower_dist_exscan NumbaNumType.int32 = Except.ok "hpat_dist_exscan_i4"
    ∧ lower_dist_exscan NumbaNumType.int64 = Except.ok "hpat_dist_exscan_i8"
    ∧ lower_dist_exscan NumbaNumType.float32 = Except.ok "hpat_dist_exscan_f4"
    ∧ lower_dist_exscan NumbaNumType.float64 = Except.ok "hpat_dist_exscan_f8"
    ∧ ∀ t : NumbaNumType,
        t ≠ NumbaNumType.int32 → t ≠ NumbaNumType.int64 →
        t ≠ NumbaNumType.float32 → t ≠ NumbaNumType.float64 →
        lower_dist_reduce t = Except.error DistError.UnsupportedType
        ∧ lower_dist_exscan t = Except.error DistError.UnsupportedType := by
  refine ⟨rfl, rfl, rfl, rfl, rfl, rfl, rfl, rfl, ?_⟩
  intro t h1 h2 h3 h4
  cases t
  case int32 => exact absurd rfl h1
  case int64 => exact absurd rfl h2
  case float32 => exact absurd rfl h3
  case float64 => exact absurd rfl h4
  all_goals exact ⟨rfl, rfl⟩

/-- Witness for reduce_exscan_dispatch: float16 is rejected. -/
theorem reduce_exscan_dispatch_witness :
    lower_dist_reduce NumbaNumType.float16
      = Except.error DistError.UnsupportedType
    ∧ lower_dist_exscan NumbaNumType.float16
      = Except.error DistError.UnsupportedType :=
  reduce_exscan_dispatch.2.2.2.2.2.2.2.2 NumbaNumType.float16
    (by decide) (by decide) (by decide) (by decide)

/-- The local sum of phase 1 at an integer element dtype of modulus M (int32:
M = 2^32, int64: M = 2^64): lower_dist_cumsum types c at the element dtype
(locals c=dtype), so each += wraps modulo M.  Values are residues in [0, M). -/
def listSumMod (M : Nat) (xs : List Nat) : Nat :=
  xs.foldl (fun a b => (a + b) % M) 0

/-- Modelled from the spec: the native exclusive scan at an integer element
dtype of modulus M returns to worker r the sum of the lower-ranked
contributions, wrapped modulo M. -/
def dist_exscan_mod (M : Nat) (cs : List Nat) (r : Nat) : Nat :=
  listSumMod M (cs.take r)

/-- The output walk of cumsum_impl at an integer element dtype of modulus M:
prefix_var is typed at the element dtype (locals prefix_var=dtype), so each
+= wraps modulo M. -/
def cumsum_loop_mod (M : Nat) :
    Nat → Nat → Nat → List Nat × List Nat → List Nat × List Nat
  | 0, _, _, s => s
  | n + 1, i, p, s =>
    cumsum_loop_mod M n (i + 1) ((p + s.1.getD i 0) % M)
      (s.1, s.2.set i ((p + s.1.getD i 0) % M))

/-- cumsum_impl at an integer element dtype of modulus M: the same three
phases as cumsum_impl, with c and prefix_var typed at the element dtype, so
no widening occurs and every intermediate value is a residue modulo M. -/
def cumsum_impl_mod (M : Nat) (shards : List (List Nat)) (r : Nat)
    (out_arr : List Nat) : (List Nat × List Nat) × Int :=
  let in_arr := shards.getD r []
  let c := listSumMod M in_arr
  let cs := (shards.map (listSumMod M)).set r c
  let prefix_var := dist_exscan_mod M cs r
  (cumsum_loop_mod M in_arr.length 0 prefix_var (in_arr, out_arr), 0)

theorem foldl_mod (M : Nat) (xs : List Nat) :
    ∀ a : Nat, xs.foldl (fun p b => (p + b) % M) (a % M)
      = (a + listSum xs) % M := by
  induction xs with
  | nil =>
    intro a
    show a % M = (a + listSum ([] : List Nat)) % M
    rw [listSum_nil, Nat.add_zero]
  | cons x xs ih =>
    intro a
    show xs.foldl _ ((a % M + x) % M) = _
    rw [Nat.mod_add_mod, ih (a + x), listSum_cons, Nat.add_assoc]

theorem listSumMod_eq (M : Nat) (xs : List Nat) :
    listSumMod M xs = listSum xs % M := by
  have h := foldl_mod M xs 0
  rw [Nat.zero_mod] at h
  rw [listSumMod, h, Nat.zero_add]

theorem cumsum_loop_mod_getD_lt (M n i j p : Nat)
    (s : List Nat × List Nat) (d : Nat) (hj : j < i) :
    (cumsum_loop_mod M n i p s).2.getD j d = s.2.getD j d := by
  induction n generalizing i p s with
  | zero => rfl
  | succ n ih =>
    rw [cumsum_loop_mod, ih (i + 1) _ _ (Nat.lt_succ_of_lt hj)]
    exact getD_set_ne _ _ _ _ _ (by omega)

/-- Value written at position j by the wrapped loop: the carry plus the sum of
the inputs at positions i..j, all reduced modulo M. -/
theorem cumsum_loop_mod_getD_mid (M n i j p : Nat) (ins out : List Nat)
    (d : Nat) (hij : i ≤ j) (hjn : j < i + n) (hjo : j < out.length)
    (hin : i + n ≤ ins.length) :
    (cumsum_loop_mod M n i p (ins, out)).2.getD j d
      = (p + listSum ((ins.drop i).take (j - i + 1))) % M := by
  induction n generalizing i p out with
  | zero => omega
  | succ n ih =>
    have hi : i < ins.length := by omega
    have hdrop : ins.drop i = ins[i] :: ins.drop (i + 1) :=
      List.drop_eq_getElem_cons hi
    rw [cumsum_loop_mod]
    by_cases hji : j = i
    · subst hji
      rw [cumsum_loop_mod_getD_lt M n (j + 1) j _ _ d (Nat.lt_succ_self j),
        getD_set_self _ _ _ _ (by simpa using hjo)]
      have h1 : j - j + 1 = 1 := by omega
      rw [h1, hdrop]
      show (p + ins.getD j 0) % M = (p + listSum [ins[j]]) % M
      rw [listSum_singleton, getD_eq_getElem _ _ _ hi]
    · have hij1 : i + 1 ≤ j := by omega
      rw [ih (i + 1) _ (out.set i ((p + ins.getD i 0) % M)) hij1 (by omega)
        (by simpa using hjo) (by omega), Nat.mod_add_mod]
      have h2 : j - i + 1 = (j - (i + 1) + 1) + 1 := by omega
      rw [h2, hdrop, List.take_succ_cons, listSum_cons, ← Nat.add_assoc,
        getD_eq_getElem ins i 0 hi]

theorem listSum_map_mod (M : Nat) (L : List (List Nat)) :
    listSum (L.map (fun s => listSum s % M)) % M
      = listSum (L.map listSum) % M := by
  induction L with
  | nil => rfl
  | cons x L ih =>
    simp only [List.map_cons, listSum_cons]
    rw [Nat.mod_add_mod, Nat.add_mod, ih, ← Nat.add_mod]

/-- The value the wrapped exclusive scan hands to worker r inside
cumsum_impl_mod: the sum of all elements owned by the lower-ranked workers,
reduced modulo M. -/
theorem exscan_shards_mod (M : Nat) (shards : List (List Nat)) (r : Nat) :
    dist_exscan_mod M
      ((shards.map (listSumMod M)).set r (listSumMod M (shards.getD r []))) r
      = listSum ((shards.take r).flatten) % M := by
  rw [dist_exscan_mod, take_set_of_le _ _ _ _ (le_refl r), ← List.map_take,
    listSumMod_eq]
  have h1 : (shards.take r).map (listSumMod M)
      = (shards.take r).map (fun s => listSum s % M) :=
    List.map_congr_left (fun s _ => listSumMod_eq M s)
  rw [h1, listSum_map_mod, listSum_flatten]

/-- C10: at an integer element dtype of modulus M, c and prefix_var are typed
at the element type (no widening), so every written output value is the true
global inclusive prefix sum reduced modulo M — even when the true running
total reaches or exceeds M. -/
theorem cumsum_mod_wraps (M : Nat) (shards : List (List Nat)) (r : Nat)
    (out_arr : List Nat) (hr : r < shards.length)
    (hlen : out_arr.length = (shards.getD r []).length)
    (k : Nat) (hk : k < (shards.getD r []).length) :
    ((cumsum_impl_mod M shards r out_arr).1.2).getD k 0
      = listSum ((shards.flatten).take (shardOffset shards r + (k + 1))) % M := by
  simp only [cumsum_impl_mod]
  rw [cumsum_loop_mod_getD_mid M _ 0 k _ _ _ 0 (Nat.zero_le k) (by omega)
    (by omega) (by omega)]
  rw [List.drop_zero, Nat.sub_zero, exscan_shards_mod,
    take_flatten_split shards r (k + 1) hr (by omega), listSum_append,
    Nat.mod_add_mod]

/-- Witness for cumsum_mod_wraps: one int32 worker with shard
[2^31, 2^31]; the true total 2^32 wraps, so position 1 receives
2^32 % 2^32 = 0. -/
theorem cumsum_mod_wraps_witness :
    (0 < ([[2 ^ 31, 2 ^ 31]] : List (List Nat)).length)
    ∧ (([0, 0] : List Nat).length
        = (([[2 ^ 31, 2 ^ 31]] : List (List Nat)).getD 0 []).length)
    ∧ (1 < (([[2 ^ 31, 2 ^ 31]] : List (List Nat)).getD 0 []).length)
    ∧ ((cumsum_impl_mod (2 ^ 32) [[2 ^ 31, 2 ^ 31]] 0 [0, 0]).1.2).getD 1 0
        = listSum ((([[2 ^ 31, 2 ^ 31]] : List (List Nat)).flatten).take
            (shardOffset ([[2 ^ 31, 2 ^ 31]] : List (List Nat)) 0 + (1 + 1)))
          % 2 ^ 32 :=
  ⟨by decide, by decide, by decide,
    cumsum_mod_wraps (2 ^ 32) [[2 ^ 31, 2 ^ 31]] 0 [0, 0] (by decide)
      (by decide) 1 (by decide)⟩
